import Mathlib

set_option maxRecDepth 100000

/-!
Shallow embedding of the Equihash solver/verifier core from
src/crypto/equihash.h and src/crypto/equihash.cpp.

Modelling conventions:
* Bytes are `Nat` (the hash functions used only ever produce values < 256;
  byte-wise XOR of such values stays < 256).
* The opaque BLAKE2b base hash state is modelled as the leaf-hash function
  `h : Nat → List Nat` it induces: `h i` is the digest (of length n/8)
  obtained by cloning the base state, absorbing the 32-bit LE index `i` and
  finalising (StepRow::StepRow, equihash.cpp lines 52-60).  The BLAKE2b
  primitive itself is outside the core per the specification.
* `std::sort` over rows (which compare by `memcmp` of the hash buffer,
  equihash.h lines 67-68) is determinised as a stable fuelled merge sort over
  the same ordering; the C++ leaves the relative order of memcmp-equal rows
  unspecified, so any sort consistent with `operator<` is a faithful model.
* All loops are modelled with explicit fuel chosen large enough that the
  fuelled recursion always reaches the loop's own exit condition (arguments
  are given at each definition); this keeps every definition structural and
  kernel-executable.
-/

/-- `memcmp(a, b, len) < 0` on equal-length byte buffers (equihash.h line 68). -/
def memcmpLt : List Nat → List Nat → Bool
  | [], _ => false
  | _ :: _, [] => false
  | x :: xs, y :: ys => if x < y then true else if y < x then false else memcmpLt xs ys

/-- One merge step of the stable merge sort (fuelled; fuel ≥ sum of lengths
always suffices, and the fuel-0 fallback keeps the result a permutation). -/
def mergeFuel (le : α → α → Bool) : Nat → List α → List α → List α
  | 0, xs, ys => xs ++ ys
  | _ + 1, [], ys => ys
  | _ + 1, x :: xs, [] => x :: xs
  | f + 1, x :: xs, y :: ys =>
    if le x y then x :: mergeFuel le f xs (y :: ys) else y :: mergeFuel le f (x :: xs) ys

/-- Stable merge sort with fuel (fuel ≥ length suffices: the sublist length
halves at every level). -/
def msortFuel (le : α → α → Bool) : Nat → List α → List α
  | 0, l => l
  | _ + 1, [] => []
  | _ + 1, [x] => [x]
  | f + 1, x :: y :: l =>
    let m := (x :: y :: l).length / 2
    mergeFuel le ((x :: y :: l).length)
      (msortFuel le f ((x :: y :: l).take m)) (msortFuel le f ((x :: y :: l).drop m))

/-- Model of `std::sort` (stable determinisation consistent with the strict
order `lt`). -/
def msort (lt : α → α → Bool) (l : List α) : List α :=
  msortFuel (fun a b => ! lt b a) l.length l

/-- `std::sort` on `Nat` keys, used by `DistinctIndices` (equihash.cpp
lines 151-152). -/
def sortNat (l : List Nat) : List Nat :=
  msortFuel Nat.ble l.length l

/-- The merge scan of `DistinctIndices` over the two sorted copies
(equihash.cpp lines 154-163).  Fuelled; fuel ≥ sum of lengths suffices since
every step consumes one element of one list. -/
def scanDisjointFuel : Nat → List Nat → List Nat → Bool
  | 0, _, _ => true
  | _ + 1, _, [] => true
  | _ + 1, [], _ :: _ => true
  | f + 1, x :: xs, y :: ys =>
    if x < y then scanDisjointFuel f xs (y :: ys)
    else if x = y then false
    else scanDisjointFuel f (x :: xs) ys

/-- `DistinctIndices` (equihash.cpp lines 145-164): sort copies of both index
vectors and merge-scan them for a common element. -/
def DistinctIndices (a b : List Nat) : Bool :=
  scanDisjointFuel (a.length + b.length) (sortNat a) (sortNat b)

/-- `HasCollision(a, b, l)` (equihash.cpp lines 136-142): the first `l` bytes
of the two hashes agree. -/
def hasCollision (a b : List Nat) (l : Nat) : Bool :=
  (List.range l).all fun j => a.getD j 0 == b.getD j 0

/-- `BasicStepRow` (equihash.h lines 46-71): hash buffer plus full 32-bit
index history. -/
structure BasicRow where
  hash : List Nat
  indices : List Nat
deriving DecidableEq, Repr

/-- `TruncatedStepRow` (equihash.h lines 73-97): hash buffer, 8-bit truncated
index history, and the parallel full-index history. -/
structure TruncRow where
  hash : List Nat
  indices : List Nat
  full_indices : List Nat
deriving DecidableEq, Repr

def dRow : BasicRow := ⟨[], []⟩

def dTrunc : TruncRow := ⟨[], [], []⟩

/-- `StepRow::TrimHash(l)` (equihash.cpp lines 118-126): drop the first `l`
hash bytes. -/
def BasicRow.trim (r : BasicRow) (l : Nat) : BasicRow :=
  ⟨r.hash.drop l, r.indices⟩

def TruncRow.trim (r : TruncRow) (l : Nat) : TruncRow :=
  ⟨r.hash.drop l, r.indices, r.full_indices⟩

/-- `StepRow::IsZero` (equihash.cpp lines 128-134). -/
def BasicRow.isZero (r : BasicRow) : Bool :=
  r.hash.all (· == 0)

def TruncRow.isZero (r : TruncRow) : Bool :=
  r.hash.all (· == 0)

def xorBytes (x y : List Nat) : List Nat :=
  List.zipWith Nat.xor x y

/-- The mutation performed by `BasicStepRow::operator^=` once both length
checks passed (equihash.cpp lines 108-115): byte-wise XOR of the hashes and
concatenation of the index histories, left operand first. -/
def xorCatB (a b : BasicRow) : BasicRow :=
  ⟨xorBytes a.hash b.hash, a.indices ++ b.indices⟩

def xorCatT (a b : TruncRow) : TruncRow :=
  ⟨xorBytes a.hash b.hash, a.indices ++ b.indices, a.full_indices ++ b.full_indices⟩

def idx0B (r : BasicRow) : Nat := r.indices.headD 0

def idx0T (r : TruncRow) : Nat := r.indices.headD 0

/-- `operator^(BasicStepRow, BasicStepRow)` (equihash.h lines 63-66): the
canonical XOR; swaps the operands unless `a.indices[0] < b.indices[0]`. -/
def xorOpB (a b : BasicRow) : BasicRow :=
  if idx0B a < idx0B b then xorCatB a b else xorCatB b a

/-- `operator^(TruncatedStepRow, TruncatedStepRow)` (equihash.h lines 90-93);
the comparison is on the truncated index history. -/
def xorOpT (a b : TruncRow) : TruncRow :=
  if idx0T a < idx0T b then xorCatT a b else xorCatT b a

/-- `BasicStepRow::operator^=` with its two length checks (equihash.cpp lines
100-116), modelled as (post-state of `*this`, whether it threw).  In the
source both `throw` statements precede every mutation of `*this`, so the
post-state on the throwing paths is the unchanged receiver. -/
def xorAssignB (self a : BasicRow) : BasicRow × Bool :=
  if a.hash.length ≠ self.hash.length then (self, true)
  else if a.indices.length ≠ self.indices.length then (self, true)
  else (xorCatB self a, false)

/-- `TruncatedStepRow::operator^=` (equihash.cpp lines 341-359), same shape. -/
def xorAssignT (self a : TruncRow) : TruncRow × Bool :=
  if a.hash.length ≠ self.hash.length then (self, true)
  else if a.indices.length ≠ self.indices.length then (self, true)
  else (xorCatT self a, false)

/-- `validate_params` (equihash.cpp lines 23-37), `true` = no throw. -/
def validate_params (n k : Nat) : Bool :=
  if k ≥ n then false
  else if n % 8 ≠ 0 then false
  else if (n / (k + 1)) % 8 ≠ 0 then false
  else true

def collisionBitLength (n k : Nat) : Nat := n / (k + 1)

def collisionByteLength (n k : Nat) : Nat := collisionBitLength n k / 8

def initSize (n k : Nat) : Nat := 2 ^ (collisionBitLength n k + 1)

/-- `recreate_size` in `OptimisedSolve` (equihash.cpp line 449). -/
def recreateSize (n k : Nat) : Nat := 2 ^ (collisionBitLength n k - 7)

/-- Leaf row construction `BasicStepRow(n, base_state, i)` (equihash.cpp
lines 75-80): digest of the index plus the singleton index history. -/
def leafB (h : Nat → List Nat) (i : Nat) : BasicRow :=
  ⟨h i, [i]⟩

/-- Leaf row construction `TruncatedStepRow(n, base_state, i, ilen)`
(equihash.cpp lines 305-319): the index history keeps only
`(i >> (ilen - 8)) & 0xff`. -/
def leafT (h : Nat → List Nat) (ilen i : Nat) : TruncRow :=
  ⟨h i, [(i >>> (ilen - 8)) % 256], [i]⟩

def rowLtB (a b : BasicRow) : Bool := memcmpLt a.hash b.hash

def rowLtT (a b : TruncRow) : Bool := memcmpLt a.hash b.hash

/-!
## The collision-engine scan (equihash.cpp lines 193-236 / 384-426)

`BasicSolve` and `OptimisedSolve` phase A run the identical scan; the only
difference is the row type and the merge-emission step (the basic solver
filters on `DistinctIndices`, the truncated one does not, lines 204-212 vs
395-402).  The scan is therefore written once, parameterised by the row type
`ρ`, the hash projection, and the emission function.
-/

/-- Step 2b (lines 198-202 / 389-393): length `j ≥ 1` of the maximal run of
rows starting at `i` that collide with `X[i]` on the first `cbl` bytes. -/
def runLength (hashOf : ρ → List Nat) (cbl : Nat) (d : ρ) (X : List ρ) (i : Nat) : Nat :=
  1 + ((X.drop (i + 1)).takeWhile (fun r => hasCollision (hashOf (X.getD i d)) (hashOf r) cbl)).length

/-- Step 2c (lines 204-212 / 395-402): the rows pushed onto `Xc` for the run
`[i, i+j)`, in push order (`l` outer, `m` from `l+1` inner). -/
def runMerges (emit : ρ → ρ → Option ρ) (d : ρ) (X : List ρ) (i j : Nat) : List ρ :=
  (List.range j).flatMap fun l =>
    ((List.range j).drop (l + 1)).filterMap fun m =>
      emit (X.getD (i + l) d) (X.getD (i + m) d)

/-- Steps 2d/2e (lines 214-218 and 223-227 / 404-408 and 413-417):
`while (posFree < bound && Xc.size() > 0) X[posFree++] = Xc.back(), pop`.
`XcRev` holds the spill buffer most-recent-push first (so its head is
`Xc.back()`); the real buffer is `XcRev.reverse`.  Returns the updated table,
free cursor and remaining spill. -/
def writeBack (d : ρ) : List ρ → Nat → Nat → List ρ → List ρ × Nat × List ρ
  | X, posFree, _, [] => (X, posFree, [])
  | X, posFree, bound, c :: rest =>
    if posFree < bound then writeBack d (X.set posFree c) (posFree + 1) bound rest
    else (X, posFree, c :: rest)

/-- One iteration of the scan loop body (lines 197-220 / 388-410): find the
run, emit its merges onto the spill, then reuse consumed slots `< i+j`.
Returns `(X, i, posFree, XcRev)` after the iteration. -/
def scanIter (hashOf : ρ → List Nat) (cbl : Nat) (emit : ρ → ρ → Option ρ) (d : ρ)
    (X : List ρ) (i posFree : Nat) (XcRev : List ρ) : List ρ × Nat × Nat × List ρ :=
  let j := runLength hashOf cbl d X i
  let XcRev1 := (runMerges emit d X i j).reverse ++ XcRev
  let w := writeBack d X posFree (i + j) XcRev1
  (w.1, i + j, w.2.1, w.2.2)

/-- The scan loop `while (i < X.size() - 1)` (lines 196-221 / 387-411),
fuelled.  Each iteration advances `i` by `j ≥ 1`, so fuel `X.length` always
reaches the loop's exit condition (the loop runs at most `X.length - 1 - i`
iterations and the table length never changes during the scan). -/
def scanLoop (hashOf : ρ → List Nat) (cbl : Nat) (emit : ρ → ρ → Option ρ) (d : ρ) :
    Nat → List ρ → Nat → Nat → List ρ → List ρ × Nat × List ρ
  | 0, X, _, posFree, XcRev => (X, posFree, XcRev)
  | f + 1, X, i, posFree, XcRev =>
    if i + 1 < X.length then
      let s := scanIter hashOf cbl emit d X i posFree XcRev
      scanLoop hashOf cbl emit d f s.1 s.2.1 s.2.2.1 s.2.2.2
    else (X, posFree, XcRev)

/-- One full collision round (lines 186-237 / 377-427): sort (2a), scan
(2b-2d), drain the spill into the remaining consumed slots (2e), then either
append the overflow (2f) or truncate the unused tail (2g). -/
def roundStep (hashOf : ρ → List Nat) (cbl : Nat) (emit : ρ → ρ → Option ρ)
    (lt : ρ → ρ → Bool) (d : ρ) (X : List ρ) : List ρ :=
  let Xs := msort lt X
  let s := scanLoop hashOf cbl emit d Xs.length Xs 0 0 []
  let w := writeBack d s.1 s.2.1 s.1.length s.2.2
  if ! w.2.2.isEmpty then w.1 ++ w.2.2.reverse else w.1.take w.2.1

/-- The round loop `for (r = 1; r < k && X.size() > 0; r++)` (lines 186 /
377), run for `m = k - 1` rounds with the same emptiness guard. -/
def roundLoop (hashOf : ρ → List Nat) (cbl : Nat) (emit : ρ → ρ → Option ρ)
    (lt : ρ → ρ → Bool) (d : ρ) : Nat → List ρ → List ρ
  | 0, X => X
  | m + 1, X =>
    if 0 < X.length then
      roundLoop hashOf cbl emit lt d m (roundStep hashOf cbl emit lt d X)
    else X

/-- The basic solver's merge emission (lines 207-210): only pairs with
distinct index histories are merged, and the merged row is trimmed. -/
def basicEmit (cbl : Nat) (a b : BasicRow) : Option BasicRow :=
  if DistinctIndices a.indices b.indices then some ((xorOpB a b).trim cbl) else none

/-- The truncated solver's merge emission (lines 398-400): no distinctness
check ("We truncated, so don't check for distinct indices here"). -/
def truncEmit (cbl : Nat) (a b : TruncRow) : Option TruncRow :=
  some ((xorOpT a b).trim cbl)

/-- The adjacent pairs `(X[i], X[i+1])` for `i = 0 .. size-2`, in order: the
iteration space of the final round's `for` loop (lines 246 / 436). -/
def adjPairs : List ρ → List (ρ × ρ)
  | a :: b :: rest => (a, b) :: adjPairs (b :: rest)
  | _ => []

/-- `Equihash::BasicSolve` (equihash.cpp lines 172-256).  The returned
`std::set` is modelled as the list of insertions (final round, lines
239-255); set semantics are expressed through membership in the claims. -/
def basicSolveList (n k : Nat) (h : Nat → List Nat) : List (List Nat) :=
  let cbl := collisionByteLength n k
  let X0 := (List.range (initSize n k)).map (leafB h)
  let X := roundLoop (fun r => r.hash) cbl (basicEmit cbl) rowLtB dRow (k - 1) X0
  if 1 < X.length then
    (adjPairs (msort rowLtB X)).filterMap fun ab =>
      let res := xorOpB ab.1 ab.2
      if res.isZero && DistinctIndices ab.1.indices ab.2.indices then some res.indices else none
  else []

/-- Phase A of `Equihash::OptimisedSolve` (lines 361-445): the truncated
pipeline followed by the final round collecting partial solutions. -/
def truncPartials (n k : Nat) (h : Nat → List Nat) : List (List Nat) :=
  let cbl := collisionByteLength n k
  let ilen := collisionBitLength n k + 1
  let X0 := (List.range (initSize n k)).map (leafT h ilen)
  let X := roundLoop (fun r => r.hash) cbl (truncEmit cbl) rowLtT dTrunc (k - 1) X0
  if 1 < X.length then
    (adjPairs (msort rowLtT X)).filterMap fun ab =>
      let res := xorOpT ab.1 ab.2
      if res.isZero && DistinctIndices ab.1.indices ab.2.indices then some res.indices else none
  else []

/-- Phase B list generation (equihash.cpp lines 461-470): for each truncated
slot `p_v` of the partial solution, the `recreate_size` leaf rows for the
indices `(p_v << recreate_size) | j`.  NOTE: the source shifts by the *value*
`recreate_size = 2^(N-7)`, not by the bit count `N-7`; this is modelled
faithfully. -/
def phaseBInit (n k : Nat) (h : Nat → List Nat) (p : List Nat) : List (List BasicRow) :=
  p.map fun pv =>
    (List.range (recreateSize n k)).map fun j => leafB h ((pv <<< recreateSize n k) ||| j)

/-- Step 2b of the phase-B cross merge (lines 500-509): expansion lengths of
the two cursors.  `i` counts left-list rows from `iChecked` colliding with
`X[v+1][jChecked]`; `j` starts at 1 and counts right-list rows from
`jChecked+1` colliding with `X[v][iChecked]`. -/
def crossI (cbl : Nat) (L R : List BasicRow) (iC jC : Nat) : Nat :=
  ((L.drop iC).takeWhile (fun r => hasCollision r.hash (R.getD jC dRow).hash cbl)).length

def crossJ (cbl : Nat) (L R : List BasicRow) (iC jC : Nat) : Nat :=
  1 + ((R.drop (jC + 1)).takeWhile (fun r => hasCollision (L.getD iC dRow).hash r.hash cbl)).length

/-- Step 2c of the cross merge (lines 511-519), in push order.  NOTE the
source's emission `X[v][iChecked+l] ^ X[v][jChecked+m]` takes BOTH operands
from the left list (the second index should address `X[v+1]`); the
distinctness test on line 514 does use the right-list row.  Modelled
faithfully. -/
def crossEmits (cbl : Nat) (L R : List BasicRow) (iC jC i j : Nat) : List BasicRow :=
  (List.range i).flatMap fun l =>
    (List.range j).filterMap fun m =>
      if DistinctIndices (L.getD (iC + l) dRow).indices (R.getD (jC + m) dRow).indices
      then some ((xorOpB (L.getD (iC + l) dRow) (L.getD (jC + m) dRow)).trim cbl)
      else none

/-- One iteration of the cross-merge loop (lines 496-527): compute the
expansions, emit the filtered Cartesian product, then advance both cursors
by `(i, j)` — or `jChecked` by 1 if neither expanded (dead in practice since
`j ≥ 1` always).  Returns `(iChecked, jChecked, acc)`. -/
def crossStep (cbl : Nat) (L R : List BasicRow) (iC jC : Nat) (acc : List BasicRow) :
    Nat × Nat × List BasicRow :=
  let i := crossI cbl L R iC jC
  let j := crossJ cbl L R iC jC
  let acc1 := acc ++ crossEmits cbl L R iC jC i j
  if i = 0 ∧ j = 0 then (iC, jC + 1, acc1) else (iC + i, jC + j, acc1)

/-- The cross-merge loop `while (iChecked < X[v].size() && jChecked <
X[v+1].size())` (line 496), fuelled; `jChecked` grows by at least 1 per
iteration, so fuel `R.length` always reaches the exit condition. -/
def crossLoop (cbl : Nat) (L R : List BasicRow) : Nat → Nat → Nat → List BasicRow → List BasicRow
  | 0, _, _, acc => acc
  | f + 1, iC, jC, acc =>
    if iC < L.length ∧ jC < R.length then
      let s := crossStep cbl L R iC jC acc
      crossLoop cbl L R f s.1 s.2.1 s.2.2
    else acc

def crossMerge (cbl : Nat) (L R : List BasicRow) : List BasicRow :=
  crossLoop cbl L R R.length 0 0 []

/-- One phase-B round (lines 473-533): sort every list, then cross-merge the
lists pairwise. -/
def phaseBRound (n k : Nat) (X : List (List BasicRow)) : List (List BasicRow) :=
  let Xs := X.map (msort rowLtB)
  (List.range (Xs.length / 2)).map fun vh =>
    crossMerge (collisionByteLength n k) (Xs.getD (2 * vh) []) (Xs.getD (2 * vh + 1) [])

/-- The phase-B round loop `while (X.size() > 1)` (line 473), fuelled; the
list count halves every round so fuel `X.length` always reaches the exit
condition. -/
def phaseBLoop (n k : Nat) : Nat → List (List BasicRow) → List (List BasicRow)
  | 0, X => X
  | f + 1, X =>
    if 1 < X.length then phaseBLoop n k f (phaseBRound n k X) else X

/-- `Equihash::OptimisedSolve` (equihash.cpp lines 361-544): phase A produces
the partial solutions, then each is reconstructed through phase B and every
row of the final list is recorded as a solution (lines 536-540). -/
def optimisedSolveList (n k : Nat) (h : Nat → List Nat) : List (List Nat) :=
  (truncPartials n k h).flatMap fun p =>
    let X := phaseBInit n k h p
    let X1 := phaseBLoop n k X.length X
    (X1.getD 0 []).map fun r => r.indices

/-- One verifier pair check (equihash.cpp lines 274-290): collision on the
next `cbl` bytes, canonical index order (`X[i+1].IndicesBefore(X[i])` must be
false), distinct index histories; on success the merged trimmed row. -/
def verifyPair (cbl : Nat) (a b : BasicRow) : Option BasicRow :=
  if ! hasCollision a.hash b.hash cbl then none
  else if idx0B b < idx0B a then none
  else if ! DistinctIndices a.indices b.indices then none
  else some ((xorOpB a b).trim cbl)

/-- The verifier's pass over one level, aborting at the first failing pair
(lines 273-292). -/
def verifyPairs (cbl : Nat) (X : List BasicRow) : List Nat → Option (List BasicRow)
  | [] => some []
  | i :: is =>
    match verifyPair cbl (X.getD (2 * i) dRow) (X.getD (2 * i + 1) dRow) with
    | none => none
    | some r =>
      match verifyPairs cbl X is with
      | none => none
      | some rs => some (r :: rs)

def verifyRound (cbl : Nat) (X : List BasicRow) : Option (List BasicRow) :=
  verifyPairs cbl X (List.range (X.length / 2))

/-- The verifier loop `while (X.size() > 1)` (line 272) followed by the final
`X[0].IsZero()` (line 296), fuelled; each round halves the list so fuel
`X.length` always reaches the exit condition. -/
def verifyLoop (cbl : Nat) : Nat → List BasicRow → Bool
  | 0, X => (X.getD 0 dRow).isZero
  | f + 1, X =>
    if 1 < X.length then
      match verifyRound cbl X with
      | none => false
      | some Xc => verifyLoop cbl f Xc
    else (X.getD 0 dRow).isZero

/-- `Equihash::IsValidSolution` (equihash.cpp lines 258-297). -/
def isValidSolution (n k : Nat) (h : Nat → List Nat) (soln : List Nat) : Bool :=
  if soln.length ≠ 2 ^ k then false
  else verifyLoop (collisionByteLength n k) soln.length (soln.map (leafB h))

/-- The verifier's list at level `r` (`r` rounds of `verifyRound` from the
leaf rows), `none` once a check failed or the level count exceeded the
halving depth.  Used to state claims about individual levels of the
verifier's merge. -/
def verifyLevels (cbl : Nat) : Nat → List BasicRow → Option (List BasicRow)
  | 0, X => some X
  | r + 1, X =>
    if 1 < X.length then
      match verifyRound cbl X with
      | none => none
      | some Xc => verifyLevels cbl r Xc
    else none

/-!
## Concrete inputs used for counterexamples and witnesses

With `n = 16, k = 1` the parameters are valid (`N = 8`, `Nb = 1`, `W = 2`,
`L = 512`, `S = 2`) and this is the smallest admissible instance, which keeps
the concrete evaluations tractable.
-/

/-- A concrete leaf-hash table for `n = 16, k = 1` (2-byte digests): leaves
2 and 4 share the all-zero digest, every other digest is distinct and
non-zero; leaves 8 and 4 collide on the first byte only. -/
def hashA (i : Nat) : List Nat :=
  if i = 2 ∨ i = 4 then [0, 0]
  else if i = 5 then [9, 1]
  else if i = 8 then [0, 7]
  else [1 + i / 256, i % 256]

/-- Degenerate leaf-hash table for `n = 8, k = 0` (1-byte digests): all
leaves hash to the zero byte. -/
def hZero (_ : Nat) : List Nat := [0]

/-- The phase-B leaf index fan-out as the specification words it: list `v`
holds the indices `(p_v << (N-7)) | j` for `j ∈ [0, 2^(N-7))`.  Stated from
the spec's words for comparison with `phaseBInit`. -/
def specPhaseBLeafIndices (n k : Nat) (p : List Nat) : List (List Nat) :=
  p.map fun pv =>
    (List.range (2 ^ (collisionBitLength n k - 7))).map fun j =>
      (pv <<< (collisionBitLength n k - 7)) ||| j

/-- The per-round row invariant of the basic pipeline: after `r` rounds a
row's index history has exactly `2^r` entries, pairwise distinct, all below
the initial list size `L`. -/
def rowInv (L r : Nat) (row : BasicRow) : Prop :=
  row.indices.length = 2 ^ r ∧ row.indices.Nodup ∧ ∀ x ∈ row.indices, x < L

/-!
## Theorems

General-purpose lemmas about the sorting and scanning primitives first, then
one theorem (plus witness / counterexample where required) per claim.
-/

theorem xorBytes_comm (x y : List Nat) : xorBytes x y = xorBytes y x := by
  induction x generalizing y with
  | nil => cases y <;> rfl
  | cons a xs ih =>
    cases y with
    | nil => rfl
    | cons b ys =>
      show Nat.xor a b :: xorBytes xs ys = Nat.xor b a :: xorBytes ys xs
      have hc : Nat.xor a b = Nat.xor b a := Nat.xor_comm a b
      rw [hc, ih ys]

theorem length_xorBytes (x y : List Nat) :
    (xorBytes x y).length = min x.length y.length := by
  simp [xorBytes]

/-- C4: `Equihash(n, k)` construction throws `invalid_params` exactly when
`k ≥ n`, or `n` is not divisible by 8, or `n/(k+1)` is not divisible by 8;
for every pair satisfying all three invariants construction succeeds. -/
theorem c4_param_validation (n k : Nat) :
    validate_params n k = false ↔ (n ≤ k ∨ n % 8 ≠ 0 ∨ (n / (k + 1)) % 8 ≠ 0) := by
  unfold validate_params
  by_cases h1 : k ≥ n <;> by_cases h2 : n % 8 = 0 <;>
    by_cases h3 : (n / (k + 1)) % 8 = 0 <;> simp [h1, h2, h3]

/-- C5: for rows of equal hash length and equal index-history length, the
canonical XOR `a ^ b` yields the byte-wise XOR of the hashes and the
concatenation of the index histories, the operand with the smaller first
index first (operands swapped when `a.indices[0] ≥ b.indices[0]`). -/
theorem c5_canonical_xor (a b : BasicRow)
    (hh : a.hash.length = b.hash.length)
    (hi : a.indices.length = b.indices.length) :
    (xorOpB a b).hash = List.zipWith Nat.xor a.hash b.hash ∧
    (xorOpB a b).indices =
      (if idx0B a < idx0B b then a.indices ++ b.indices else b.indices ++ a.indices) ∧
    (xorOpB a b).hash.length = a.hash.length ∧
    (xorOpB a b).indices.length = a.indices.length + b.indices.length := by
  have hhash : (xorOpB a b).hash = List.zipWith Nat.xor a.hash b.hash := by
    unfold xorOpB
    by_cases hlt : idx0B a < idx0B b
    · rw [if_pos hlt]; rfl
    · rw [if_neg hlt]; exact xorBytes_comm b.hash a.hash
  have hind : (xorOpB a b).indices =
      (if idx0B a < idx0B b then a.indices ++ b.indices else b.indices ++ a.indices) := by
    unfold xorOpB
    by_cases hlt : idx0B a < idx0B b
    · rw [if_pos hlt, if_pos hlt]; rfl
    · rw [if_neg hlt, if_neg hlt]; rfl
  refine ⟨hhash, hind, ?_, ?_⟩
  · rw [hhash]; simp [hh]
  · rw [hind]; split <;> simp [Nat.add_comm]

/-- Witness for C5 at a concrete pair of rows. -/
theorem c5_canonical_xor_witness :
    (xorOpB (BasicRow.mk [1, 2] [3]) (BasicRow.mk [4, 6] [7])).hash =
      List.zipWith Nat.xor [1, 2] [4, 6] ∧
    (xorOpB (BasicRow.mk [1, 2] [3]) (BasicRow.mk [4, 6] [7])).indices =
      (if idx0B (BasicRow.mk [1, 2] [3]) < idx0B (BasicRow.mk [4, 6] [7])
       then [3] ++ [7] else [7] ++ [3]) ∧
    (xorOpB (BasicRow.mk [1, 2] [3]) (BasicRow.mk [4, 6] [7])).hash.length = 2 ∧
    (xorOpB (BasicRow.mk [1, 2] [3]) (BasicRow.mk [4, 6] [7])).indices.length = 1 + 1 :=
  c5_canonical_xor (BasicRow.mk [1, 2] [3]) (BasicRow.mk [4, 6] [7]) (by decide) (by decide)

/-- C6: `operator^=` (both row flavours) throws exactly when the hash lengths
differ or the index-history lengths differ, and on the throwing paths the
receiver is unchanged (both checks precede every mutation). -/
theorem c6_xor_assign_checks (a b : BasicRow) (c d : TruncRow) :
    ((xorAssignB a b).2 = true ↔
      (b.hash.length ≠ a.hash.length ∨ b.indices.length ≠ a.indices.length)) ∧
    ((xorAssignB a b).2 = true → (xorAssignB a b).1 = a) ∧
    ((xorAssignT c d).2 = true ↔
      (d.hash.length ≠ c.hash.length ∨ d.indices.length ≠ c.indices.length)) ∧
    ((xorAssignT c d).2 = true → (xorAssignT c d).1 = c) := by
  unfold xorAssignB xorAssignT
  by_cases h1 : b.hash.length = a.hash.length <;>
    by_cases h2 : b.indices.length = a.indices.length <;>
    by_cases h3 : d.hash.length = c.hash.length <;>
    by_cases h4 : d.indices.length = c.indices.length <;>
    simp [h1, h2, h3, h4]

/-- Witness for C6 at concrete rows (hash-length mismatch on the basic pair,
index-length mismatch on the truncated pair). -/
theorem c6_xor_assign_checks_witness :
    (xorAssignB (BasicRow.mk [1] [2]) (BasicRow.mk [3, 4] [5])).2 = true ∧
    (xorAssignB (BasicRow.mk [1] [2]) (BasicRow.mk [3, 4] [5])).1 = BasicRow.mk [1] [2] ∧
    (xorAssignT (TruncRow.mk [1] [2] [2]) (TruncRow.mk [3] [5, 6] [5, 6])).2 = true ∧
    (xorAssignT (TruncRow.mk [1] [2] [2]) (TruncRow.mk [3] [5, 6] [5, 6])).1 =
      TruncRow.mk [1] [2] [2] := by
  have h := c6_xor_assign_checks (BasicRow.mk [1] [2]) (BasicRow.mk [3, 4] [5])
    (TruncRow.mk [1] [2] [2]) (TruncRow.mk [3] [5, 6] [5, 6])
  have hb : (xorAssignB (BasicRow.mk [1] [2]) (BasicRow.mk [3, 4] [5])).2 = true :=
    h.1.mpr (Or.inl (by decide))
  have ht : (xorAssignT (TruncRow.mk [1] [2] [2]) (TruncRow.mk [3] [5, 6] [5, 6])).2 = true :=
    h.2.2.1.mpr (Or.inr (by decide))
  exact ⟨hb, h.2.1 hb, ht, h.2.2.2 ht⟩

/-- C3 (code bug): with `n = 16, k = 1` (so `N = 8`, `R = 2^(N-7) = 2`) and
the partial solution `[1, 2]`, phase B generates the leaf rows for the
indices `(p_v << recreate_size) | j` — `[[4],[5]]` and `[[8],[9]]` — each
carrying a single full index, whereas the claim's fan-out
`(p_v << (N-7)) | j` is `[2,3]` and `[4,5]`: the source shifts by the value
`2^(N-7)` instead of the bit count `N-7`. -/
theorem c3_phaseB_leaf_indices :
    ((phaseBInit 16 1 hashA [1, 2]).map fun l => l.map fun r => r.indices) =
      [[[4], [5]], [[8], [9]]] ∧
    specPhaseBLeafIndices 16 1 [1, 2] = [[2, 3], [4, 5]] ∧
    ((phaseBInit 16 1 hashA [1, 2]).map fun l => l.map fun r => r.indices) ≠
      ((specPhaseBLeafIndices 16 1 [1, 2]).map fun l => l.map fun i => [i]) := by
  decide

set_option maxHeartbeats 8000000

/-- C1 (code bug): with the valid parameters `n = 16, k = 1` and the leaf
hashes `hashA`, `OptimisedSolve` returns the solution `[4, 4]` — phase B's
emission `X[v][iChecked+l] ^ X[v][jChecked+m]` (equihash.cpp line 515) takes
both operands from the left list, here merging the leaf row of index 4 with
itself — and the verifier rejects it (duplicate indices), contradicting the
claim that every returned solution is accepted. -/
theorem c1_optimised_solution_rejected :
    [4, 4] ∈ optimisedSolveList 16 1 hashA ∧
    isValidSolution 16 1 hashA [4, 4] = false := by
  decide

/-- C2 (code bug): on the same valid input, `BasicSolve` returns exactly
`{[2, 4]}` while `OptimisedSolve` returns exactly `{[4, 4]}`: the two
solvers do not return the same set of solutions. -/
theorem c2_solver_sets_differ :
    basicSolveList 16 1 hashA = [[2, 4]] ∧
    optimisedSolveList 16 1 hashA = [[4, 4]] ∧
    ¬ ([2, 4] ∈ optimisedSolveList 16 1 hashA) := by
  decide

/-! ### Permutation and sortedness facts about the fuelled sort -/

theorem mergeFuel_perm (le : α → α → Bool) :
    ∀ (f : Nat) (xs ys : List α), (mergeFuel le f xs ys).Perm (xs ++ ys) := by
  intro f
  induction f with
  | zero => intro xs ys; simp [mergeFuel]
  | succ f ih =>
    intro xs ys
    cases xs with
    | nil => simp [mergeFuel]
    | cons x xs =>
      cases ys with
      | nil => simp [mergeFuel]
      | cons y ys =>
        by_cases hle : le x y = true
        · simpa [mergeFuel, hle] using (ih xs (y :: ys)).cons x
        · have h1 : (y :: mergeFuel le f (x :: xs) ys).Perm (y :: (x :: xs ++ ys)) :=
            (ih (x :: xs) ys).cons y
          have h2 : (x :: xs ++ y :: ys).Perm (y :: (x :: xs ++ ys)) := List.perm_middle
          simpa [mergeFuel, hle] using h1.trans h2.symm

theorem msortFuel_perm (le : α → α → Bool) :
    ∀ (f : Nat) (l : List α), (msortFuel le f l).Perm l := by
  intro f
  induction f with
  | zero => intro l; simp [msortFuel]
  | succ f ih =>
    intro l
    match l with
    | [] => simp [msortFuel]
    | [x] => simp [msortFuel]
    | x :: y :: l =>
      have hsplit : ((x :: y :: l).take ((x :: y :: l).length / 2) ++
          (x :: y :: l).drop ((x :: y :: l).length / 2)).Perm (x :: y :: l) := by
        rw [List.take_append_drop]
      simp only [msortFuel]
      exact (mergeFuel_perm le _ _ _).trans (((ih _).append (ih _)).trans hsplit)

theorem msort_perm (lt : α → α → Bool) (l : List α) : (msort lt l).Perm l :=
  msortFuel_perm _ _ _

theorem mem_msort (lt : α → α → Bool) (l : List α) (x : α) :
    x ∈ msort lt l ↔ x ∈ l :=
  (msort_perm lt l).mem_iff

theorem length_msort (lt : α → α → Bool) (l : List α) :
    (msort lt l).length = l.length :=
  (msort_perm lt l).length_eq

theorem sortNat_perm (l : List Nat) : (sortNat l).Perm l :=
  msortFuel_perm _ _ _

theorem mergeFuel_sorted_nat :
    ∀ (f : Nat) (xs ys : List Nat), xs.length + ys.length ≤ f →
      xs.Sorted (· ≤ ·) → ys.Sorted (· ≤ ·) →
      (mergeFuel Nat.ble f xs ys).Sorted (· ≤ ·) := by
  intro f
  induction f with
  | zero =>
    intro xs ys hf _ _
    have hx : xs = [] := List.length_eq_zero.mp (by omega)
    have hy : ys = [] := List.length_eq_zero.mp (by omega)
    subst hx; subst hy; simp [mergeFuel]
  | succ f ih =>
    intro xs ys hf hxs hys
    cases xs with
    | nil => simpa [mergeFuel] using hys
    | cons x xs =>
      cases ys with
      | nil => simpa [mergeFuel] using hxs
      | cons y ys =>
        by_cases hle : Nat.ble x y = true
        · have hxy : x ≤ y := by simpa [Nat.ble_eq] using hle
          have htail : (mergeFuel Nat.ble f xs (y :: ys)).Sorted (· ≤ ·) :=
            ih xs (y :: ys) (by simp at hf ⊢; omega) (List.sorted_cons.mp hxs).2 hys
          have hbound : ∀ b ∈ mergeFuel Nat.ble f xs (y :: ys), x ≤ b := by
            intro b hb
            have hb1 : b ∈ xs ++ y :: ys := (mergeFuel_perm Nat.ble f xs (y :: ys)).mem_iff.mp hb
            rcases List.mem_append.mp hb1 with h | h
            · exact (List.sorted_cons.mp hxs).1 b h
            · rcases List.mem_cons.mp h with h | h
              · exact h ▸ hxy
              · exact le_trans hxy ((List.sorted_cons.mp hys).1 b h)
          simpa [mergeFuel, hle] using List.sorted_cons.mpr ⟨hbound, htail⟩
        · have hyx : y ≤ x := by
            have : ¬ x ≤ y := by simpa [Nat.ble_eq] using hle
            omega
          have htail : (mergeFuel Nat.ble f (x :: xs) ys).Sorted (· ≤ ·) :=
            ih (x :: xs) ys (by simp at hf ⊢; omega) hxs (List.sorted_cons.mp hys).2
          have hbound : ∀ b ∈ mergeFuel Nat.ble f (x :: xs) ys, y ≤ b := by
            intro b hb
            have hb1 : b ∈ x :: xs ++ ys := by
              simpa using (mergeFuel_perm Nat.ble f (x :: xs) ys).mem_iff.mp hb
            rcases List.mem_cons.mp hb1 with h | h
            · exact h ▸ hyx
            · rcases List.mem_append.mp h with h | h
              · exact le_trans hyx ((List.sorted_cons.mp hxs).1 b h)
              · exact (List.sorted_cons.mp hys).1 b h
          simpa [mergeFuel, hle] using List.sorted_cons.mpr ⟨hbound, htail⟩

theorem msortFuel_sorted_nat :
    ∀ (f : Nat) (l : List Nat), l.length ≤ f →
      (msortFuel Nat.ble f l).Sorted (· ≤ ·) := by
  intro f
  induction f with
  | zero =>
    intro l hf
    have : l = [] := List.length_eq_zero.mp (by omega)
    subst this; simp [msortFuel]
  | succ f ih =>
    intro l hf
    match l with
    | [] => simp [msortFuel]
    | [x] => simp [msortFuel]
    | x :: y :: l =>
      simp only [msortFuel]
      have hlen : (x :: y :: l).length = l.length + 2 := by simp
      have htake : ((x :: y :: l).take ((x :: y :: l).length / 2)).length ≤ f := by
        simp only [List.length_take, hlen]
        simp only [hlen] at hf
        omega
      have hdrop : ((x :: y :: l).drop ((x :: y :: l).length / 2)).length ≤ f := by
        simp only [List.length_drop, hlen]
        simp only [hlen] at hf
        omega
      have hsum : ((msortFuel Nat.ble f ((x :: y :: l).take ((x :: y :: l).length / 2))).length
          + (msortFuel Nat.ble f ((x :: y :: l).drop ((x :: y :: l).length / 2))).length)
          ≤ (x :: y :: l).length := by
        rw [(msortFuel_perm Nat.ble f _).length_eq, (msortFuel_perm Nat.ble f _).length_eq]
        simp only [List.length_take, List.length_drop, hlen]
        omega
      exact mergeFuel_sorted_nat _ _ _ hsum (ih _ htake) (ih _ hdrop)

theorem sortNat_sorted (l : List Nat) : (sortNat l).Sorted (· ≤ ·) :=
  msortFuel_sorted_nat _ _ le_rfl

/-! ### What `DistinctIndices` decides -/

theorem scanDisjoint_true_disjoint :
    ∀ (f : Nat) (xs ys : List Nat), xs.length + ys.length ≤ f →
      xs.Sorted (· ≤ ·) → ys.Sorted (· ≤ ·) →
      scanDisjointFuel f xs ys = true → ∀ x ∈ xs, x ∉ ys := by
  intro f
  induction f with
  | zero =>
    intro xs ys hf _ _ _
    have : xs = [] := List.length_eq_zero.mp (by omega)
    subst this; intro x hx; cases hx
  | succ f ih =>
    intro xs ys hf hxs hys hscan
    cases ys with
    | nil => intro x _ hx; cases hx
    | cons y ys =>
      cases xs with
      | nil => intro x hx; cases hx
      | cons x xs =>
        by_cases hlt : x < y
        · have hscan1 : scanDisjointFuel f xs (y :: ys) = true := by
            simpa [scanDisjointFuel, hlt] using hscan
          have htail := ih xs (y :: ys) (by simp at hf ⊢; omega)
            (List.sorted_cons.mp hxs).2 hys hscan1
          intro a ha
          rcases List.mem_cons.mp ha with h | h
          · subst h
            intro hmem
            rcases List.mem_cons.mp hmem with h | h
            · omega
            · have := (List.sorted_cons.mp hys).1 a h
              omega
          · exact htail a h
        · by_cases heq : x = y
          · rw [scanDisjointFuel, if_neg hlt, if_pos heq] at hscan
            cases hscan
          · have hgt : y < x := by omega
            have hscan1 : scanDisjointFuel f (x :: xs) ys = true := by
              simpa [scanDisjointFuel, hlt, heq] using hscan
            have htail := ih (x :: xs) ys (by simp at hf ⊢; omega)
              hxs (List.sorted_cons.mp hys).2 hscan1
            intro a ha
            intro hmem
            rcases List.mem_cons.mp hmem with h | h
            · have hy_in : y ∈ x :: xs := h ▸ ha
              rcases List.mem_cons.mp hy_in with h1 | h1
              · omega
              · have := (List.sorted_cons.mp hxs).1 y h1
                omega
            · exact htail a ha h

theorem DistinctIndices_true_disjoint (a b : List Nat) :
    DistinctIndices a b = true → ∀ x ∈ a, x ∉ b := by
  intro hd x hxa hxb
  have hlen : (sortNat a).length + (sortNat b).length ≤ a.length + b.length := by
    rw [(sortNat_perm a).length_eq, (sortNat_perm b).length_eq]
  exact scanDisjoint_true_disjoint _ _ _ hlen (sortNat_sorted a) (sortNat_sorted b) hd x
    ((sortNat_perm a).mem_iff.mpr hxa) ((sortNat_perm b).mem_iff.mpr hxb)

theorem DistinctIndices_false_of_mem (a b : List Nat) (x : Nat)
    (hxa : x ∈ a) (hxb : x ∈ b) : DistinctIndices a b = false := by
  cases hd : DistinctIndices a b with
  | false => rfl
  | true => exact absurd hxb (DistinctIndices_true_disjoint a b hd x hxa)

/-! ### List access helpers -/

theorem getD_mem {l : List α} {n : Nat} (d : α) (h : n < l.length) : l.getD n d ∈ l := by
  rw [List.getD_eq_getElem?_getD, List.getElem?_eq_getElem h]
  exact List.getElem_mem h

theorem getD_set_ne (l : List α) (p q : Nat) (c d : α) (h : p ≠ q) :
    (l.set p c).getD q d = l.getD q d := by
  rw [List.getD_eq_getElem?_getD, List.getD_eq_getElem?_getD, List.getElem?_set_ne h]

theorem getD_set_eq (l : List α) (p : Nat) (c d : α) (h : p < l.length) :
    (l.set p c).getD p d = c := by
  rw [List.getD_eq_getElem?_getD, List.getElem?_set_self h]
  rfl

theorem getD_prop_of_take {P : α → Prop} {l : List α} {n : Nat} {d : α}
    (h : ∀ p, p < n → p < l.length → P (l.getD p d)) : ∀ x ∈ l.take n, P x := by
  intro x hx
  rcases List.mem_iff_getElem.mp hx with ⟨p, hp, hval⟩
  have hlt : p < n := by
    have := hp
    simp [List.length_take] at this
    omega
  have hlen : p < l.length := by
    have := hp
    simp [List.length_take] at this
    omega
  rw [List.getElem_take] at hval
  have hx2 : l.getD p d = x := by
    rw [List.getD_eq_getElem?_getD, List.getElem?_eq_getElem hlen]
    exact hval
  exact hx2 ▸ h p hlt hlen

/-! ### The write-back loop (steps 2d/2e) -/

theorem writeBack_spec (d : ρ) :
    ∀ (XcRev X : List ρ) (posFree bound : Nat), bound ≤ X.length →
      (writeBack d X posFree bound XcRev).1.length = X.length ∧
      posFree ≤ (writeBack d X posFree bound XcRev).2.1 ∧
      (posFree ≤ bound → (writeBack d X posFree bound XcRev).2.1 ≤ bound) ∧
      (∀ p, (p < posFree ∨ (writeBack d X posFree bound XcRev).2.1 ≤ p) →
        (writeBack d X posFree bound XcRev).1.getD p d = X.getD p d) ∧
      (∀ p, posFree ≤ p → p < (writeBack d X posFree bound XcRev).2.1 →
        (writeBack d X posFree bound XcRev).1.getD p d ∈ XcRev) ∧
      (∀ r ∈ (writeBack d X posFree bound XcRev).2.2, r ∈ XcRev) ∧
      ((writeBack d X posFree bound XcRev).2.2 ≠ [] →
        bound ≤ (writeBack d X posFree bound XcRev).2.1) := by
  intro XcRev
  induction XcRev with
  | nil =>
    intro X posFree bound hb
    refine ⟨rfl, le_rfl, fun h => h, fun p _ => rfl, ?_, ?_, ?_⟩
    · intro p h1 h2
      simp [writeBack] at h2
      omega
    · intro r hr
      simp [writeBack] at hr
    · intro hne
      simp [writeBack] at hne
  | cons c rest ih =>
    intro X posFree bound hb
    by_cases hlt : posFree < bound
    · have hset : bound ≤ (X.set posFree c).length := by
        rw [List.length_set]; exact hb
      have hrec := ih (X.set posFree c) (posFree + 1) bound hset
      have hunfold : writeBack d X posFree bound (c :: rest) =
          writeBack d (X.set posFree c) (posFree + 1) bound rest := by
        simp [writeBack, hlt]
      rw [hunfold]
      obtain ⟨ha, hb2, hc, hd, he, hf, hg⟩ := hrec
      refine ⟨by rw [ha, List.length_set], by omega, fun h => hc (by omega), ?_, ?_,
        fun r hr => List.mem_cons_of_mem c (hf r hr), hg⟩
      · intro p hp
        have hne : posFree ≠ p := by
          rcases hp with h | h
          · omega
          · omega
        rw [hd p (by rcases hp with h | h; exact Or.inl (by omega); exact Or.inr h)]
        exact getD_set_ne X posFree p c d hne
      · intro p hp1 hp2
        by_cases hpe : p = posFree
        · subst hpe
          have : (writeBack d (X.set p c) (p + 1) bound rest).1.getD p d =
              (X.set p c).getD p d := hd p (Or.inl (by omega))
          rw [this, getD_set_eq X p c d (by omega)]
          exact List.mem_cons_self c rest
        · exact List.mem_cons_of_mem c (he p (by omega) hp2)
    · have hunfold : writeBack d X posFree bound (c :: rest) = (X, posFree, c :: rest) := by
        simp [writeBack, hlt]
      rw [hunfold]
      dsimp only
      refine ⟨rfl, le_rfl, fun h => h, fun p _ => rfl, ?_, fun r hr => hr, fun _ => by omega⟩
      intro p h1 h2
      omega

theorem length_takeWhile_le (p : α → Bool) (l : List α) :
    (l.takeWhile p).length ≤ l.length := by
  induction l with
  | nil => simp [List.takeWhile]
  | cons x xs ih =>
    by_cases hp : p x = true <;> simp [List.takeWhile, hp] <;> omega

theorem runLength_pos (hashOf : ρ → List Nat) (cbl : Nat) (d : ρ) (X : List ρ) (i : Nat) :
    1 ≤ runLength hashOf cbl d X i := by
  simp [runLength]

theorem runLength_le (hashOf : ρ → List Nat) (cbl : Nat) (d : ρ) (X : List ρ) (i : Nat)
    (hi : i < X.length) : i + runLength hashOf cbl d X i ≤ X.length := by
  have h1 := length_takeWhile_le
    (fun r => hasCollision (hashOf (X.getD i d)) (hashOf r) cbl) (X.drop (i + 1))
  have h2 : (X.drop (i + 1)).length = X.length - (i + 1) := List.length_drop _ _
  simp only [runLength]
  omega

/-- The compaction-frontier facts for one scan iteration: after the iteration
the free cursor is at most `i + j` (the new frontier), every table slot at or
beyond `i + j` still holds its previous row, and the table length is
unchanged. -/
theorem scanIter_frontier (hashOf : ρ → List Nat) (cbl : Nat) (emit : ρ → ρ → Option ρ)
    (d : ρ) (X : List ρ) (i posFree : Nat) (XcRev : List ρ)
    (hpf : posFree ≤ i) (hi : i + 1 < X.length) :
    (scanIter hashOf cbl emit d X i posFree XcRev).2.2.1 ≤
      i + runLength hashOf cbl d X i ∧
    (∀ p, i + runLength hashOf cbl d X i ≤ p →
      (scanIter hashOf cbl emit d X i posFree XcRev).1.getD p d = X.getD p d) ∧
    (scanIter hashOf cbl emit d X i posFree XcRev).2.1 = i + runLength hashOf cbl d X i ∧
    (scanIter hashOf cbl emit d X i posFree XcRev).1.length = X.length := by
  have hb : i + runLength hashOf cbl d X i ≤ X.length :=
    runLength_le hashOf cbl d X i (by omega)
  have hw := writeBack_spec d ((runMerges emit d X i (runLength hashOf cbl d X i)).reverse ++ XcRev)
    X posFree (i + runLength hashOf cbl d X i) hb
  obtain ⟨ha, hb2, hc, hd, _, _, _⟩ := hw
  refine ⟨hc (by omega), ?_, rfl, ha⟩
  intro p hp
  exact hd p (Or.inr (le_trans (hc (by omega)) hp))

/-- C10: in every collision round of `BasicSolve` and of phase A of
`OptimisedSolve`, whenever the scan body runs from a state with
`posFree ≤ i` (as at loop entry, where both are 0), the write cursor stays
at most `i + j` — merged rows are only written into slots at indices below
the scan frontier — and every table slot at or beyond the frontier `i + j`
still holds the row it held before the iteration: no row that is still
awaiting the collision scan is overwritten.  The resulting state again
satisfies `posFree ≤ i`, so the invariant holds throughout the round. -/
theorem c10_no_unscanned_overwrite :
    (∀ (n k : Nat) (X : List BasicRow) (i posFree : Nat) (XcRev : List BasicRow),
      posFree ≤ i → i + 1 < X.length →
      (scanIter (fun r => r.hash) (collisionByteLength n k)
          (basicEmit (collisionByteLength n k)) dRow X i posFree XcRev).2.2.1 ≤
        i + runLength (fun r => r.hash) (collisionByteLength n k) dRow X i ∧
      (∀ p, i + runLength (fun r => r.hash) (collisionByteLength n k) dRow X i ≤ p →
        (scanIter (fun r => r.hash) (collisionByteLength n k)
            (basicEmit (collisionByteLength n k)) dRow X i posFree XcRev).1.getD p dRow =
          X.getD p dRow) ∧
      (scanIter (fun r => r.hash) (collisionByteLength n k)
          (basicEmit (collisionByteLength n k)) dRow X i posFree XcRev).2.2.1 ≤
        (scanIter (fun r => r.hash) (collisionByteLength n k)
          (basicEmit (collisionByteLength n k)) dRow X i posFree XcRev).2.1) ∧
    (∀ (n k : Nat) (X : List TruncRow) (i posFree : Nat) (XcRev : List TruncRow),
      posFree ≤ i → i + 1 < X.length →
      (scanIter (fun r => r.hash) (collisionByteLength n k)
          (truncEmit (collisionByteLength n k)) dTrunc X i posFree XcRev).2.2.1 ≤
        i + runLength (fun r => r.hash) (collisionByteLength n k) dTrunc X i ∧
      (∀ p, i + runLength (fun r => r.hash) (collisionByteLength n k) dTrunc X i ≤ p →
        (scanIter (fun r => r.hash) (collisionByteLength n k)
            (truncEmit (collisionByteLength n k)) dTrunc X i posFree XcRev).1.getD p dTrunc =
          X.getD p dTrunc) ∧
      (scanIter (fun r => r.hash) (collisionByteLength n k)
          (truncEmit (collisionByteLength n k)) dTrunc X i posFree XcRev).2.2.1 ≤
        (scanIter (fun r => r.hash) (collisionByteLength n k)
          (truncEmit (collisionByteLength n k)) dTrunc X i posFree XcRev).2.1) := by
  constructor
  · intro n k X i posFree XcRev hpf hi
    have h := scanIter_frontier (fun r => r.hash) (collisionByteLength n k)
      (basicEmit (collisionByteLength n k)) dRow X i posFree XcRev hpf hi
    exact ⟨h.1, h.2.1, by rw [h.2.2.1]; exact h.1⟩
  · intro n k X i posFree XcRev hpf hi
    have h := scanIter_frontier (fun r => r.hash) (collisionByteLength n k)
      (truncEmit (collisionByteLength n k)) dTrunc X i posFree XcRev hpf hi
    exact ⟨h.1, h.2.1, by rw [h.2.2.1]; exact h.1⟩

/-- Witness for C10 at a concrete two-row table for each row flavour. -/
theorem c10_no_unscanned_overwrite_witness :
    ((scanIter (fun r => r.hash) (collisionByteLength 16 1)
        (basicEmit (collisionByteLength 16 1)) dRow
        [BasicRow.mk [0, 0] [1], BasicRow.mk [0, 1] [2]] 0 0 []).2.2.1 ≤
      0 + runLength (fun r => r.hash) (collisionByteLength 16 1) dRow
        [BasicRow.mk [0, 0] [1], BasicRow.mk [0, 1] [2]] 0) ∧
    ((scanIter (fun r => r.hash) (collisionByteLength 16 1)
        (truncEmit (collisionByteLength 16 1)) dTrunc
        [TruncRow.mk [0, 0] [1] [1], TruncRow.mk [0, 1] [2] [2]] 0 0 []).2.2.1 ≤
      0 + runLength (fun r => r.hash) (collisionByteLength 16 1) dTrunc
        [TruncRow.mk [0, 0] [1] [1], TruncRow.mk [0, 1] [2] [2]] 0) :=
  ⟨(c10_no_unscanned_overwrite.1 16 1
      [BasicRow.mk [0, 0] [1], BasicRow.mk [0, 1] [2]] 0 0 [] (by decide) (by decide)).1,
   (c10_no_unscanned_overwrite.2 16 1
      [TruncRow.mk [0, 0] [1] [1], TruncRow.mk [0, 1] [2] [2]] 0 0 [] (by decide) (by decide)).1⟩

/-! ### Cross-merge termination facts (phase B) -/

theorem crossJ_ge_one (cbl : Nat) (L R : List BasicRow) (iC jC : Nat) :
    1 ≤ crossJ cbl L R iC jC := by
  simp [crossJ]

theorem crossStep_advance (cbl : Nat) (L R : List BasicRow) (iC jC : Nat)
    (acc : List BasicRow) : jC + 1 ≤ (crossStep cbl L R iC jC acc).2.1 := by
  unfold crossStep
  by_cases h : crossI cbl L R iC jC = 0 ∧ crossJ cbl L R iC jC = 0
  · simp [h]
  · have := crossJ_ge_one cbl L R iC jC
    simp only [h, if_false]
    omega

theorem crossLoop_guard_false (cbl : Nat) (L R : List BasicRow) (iC jC : Nat)
    (acc : List BasicRow) (h : ¬ (iC < L.length ∧ jC < R.length)) :
    ∀ f, crossLoop cbl L R f iC jC acc = acc := by
  intro f
  cases f with
  | zero => rfl
  | succ f => simp [crossLoop, h]

theorem crossLoop_stable (cbl : Nat) (L R : List BasicRow) :
    ∀ (f g iC jC : Nat) (acc : List BasicRow),
      R.length - jC ≤ f → R.length - jC ≤ g →
      crossLoop cbl L R f iC jC acc = crossLoop cbl L R g iC jC acc := by
  intro f
  induction f with
  | zero =>
    intro g iC jC acc hf hg
    have hj : ¬ (iC < L.length ∧ jC < R.length) := by
      intro hc
      omega
    rw [crossLoop_guard_false cbl L R iC jC acc hj 0,
      crossLoop_guard_false cbl L R iC jC acc hj g]
  | succ f ih =>
    intro g iC jC acc hf hg
    by_cases hguard : iC < L.length ∧ jC < R.length
    · cases g with
      | zero =>
        exfalso
        omega
      | succ g =>
        simp only [crossLoop, if_pos hguard]
        have hadv := crossStep_advance cbl L R iC jC acc
        exact ih g (crossStep cbl L R iC jC acc).1 (crossStep cbl L R iC jC acc).2.1
          (crossStep cbl L R iC jC acc).2.2 (by omega) (by omega)
    · rw [crossLoop_guard_false cbl L R iC jC acc hguard (f + 1),
        crossLoop_guard_false cbl L R iC jC acc hguard g]

theorem crossMerge_nil_right (cbl : Nat) (L : List BasicRow) :
    crossMerge cbl L [] = [] := rfl

theorem crossMerge_nil_left (cbl : Nat) (R : List BasicRow) :
    crossMerge cbl [] R = [] :=
  crossLoop_guard_false cbl [] R 0 0 [] (by simp) R.length

theorem getD_map (g : α → β) (l : List α) (p : Nat) (d : β) (d2 : α)
    (hp : p < l.length) : (l.map g).getD p d = g (l.getD p d2) := by
  rw [List.getD_eq_getElem?_getD, List.getD_eq_getElem?_getD, List.getElem?_map,
    List.getElem?_eq_getElem hp]
  rfl

theorem msort_nil (lt : α → α → Bool) : msort lt [] = [] := rfl

theorem phaseBRound_length (n k : Nat) (X : List (List BasicRow)) :
    (phaseBRound n k X).length = X.length / 2 := by
  simp [phaseBRound]

theorem phaseBRound_empty_mem (n k : Nat) (X : List (List BasicRow))
    (heven : X.length % 2 = 0) (hmem : [] ∈ X) : [] ∈ phaseBRound n k X := by
  rcases List.mem_iff_getElem.mp hmem with ⟨p, hp, hval⟩
  have hval2 : X.getD p [] = [] := by
    rw [List.getD_eq_getElem?_getD, List.getElem?_eq_getElem hp]
    exact hval
  have hvh : p / 2 < X.length / 2 := by omega
  have hXs : (X.map (msort rowLtB)).length = X.length := by simp
  unfold phaseBRound
  dsimp only
  rw [hXs]
  apply List.mem_map.mpr
  refine ⟨p / 2, List.mem_range.mpr hvh, ?_⟩
  by_cases hpar : p % 2 = 0
  · have h2vh : 2 * (p / 2) = p := by omega
    rw [h2vh]
    have : (X.map (msort rowLtB)).getD p [] = msort rowLtB (X.getD p []) :=
      getD_map _ _ _ _ _ hp
    rw [this, hval2, msort_nil]
    exact crossMerge_nil_left _ _
  · have h2vh : 2 * (p / 2) + 1 = p := by omega
    rw [h2vh]
    have : (X.map (msort rowLtB)).getD p [] = msort rowLtB (X.getD p []) :=
      getD_map _ _ _ _ _ hp
    rw [this, hval2, msort_nil]
    exact crossMerge_nil_right _ _

theorem phaseBLoop_empty (n k : Nat) :
    ∀ (m f : Nat) (X : List (List BasicRow)), m ≤ f → X.length = 2 ^ m → [] ∈ X →
      phaseBLoop n k f X = [[]] := by
  intro m
  induction m with
  | zero =>
    intro f X _ hlen hmem
    have hX : X = [[]] := by
      match X, hlen with
      | [x], _ =>
        rcases List.mem_cons.mp hmem with h | h
        · rw [h.symm]
        · cases h
    subst hX
    cases f with
    | zero => rfl
    | succ f => simp [phaseBLoop]
  | succ m ih =>
    intro f X hf hlen hmem
    cases f with
    | zero => omega
    | succ f =>
      have hguard : 1 < X.length := by
        rw [hlen]
        have : 2 ≤ 2 ^ (m + 1) := by
          have := Nat.one_le_two_pow (n := m)
          rw [pow_succ]
          omega
        omega
      simp only [phaseBLoop, if_pos hguard]
      apply ih f (phaseBRound n k X) (by omega)
      · rw [phaseBRound_length, hlen, pow_succ]
        omega
      · apply phaseBRound_empty_mem
        · rw [hlen, pow_succ]
          omega
        · exact hmem

/-- C9: the phase-B cross-merge loop always terminates — `j` is initialised
to 1 and never decreased, so every iteration advances `jChecked` by at least
one, and any fuel at least `|X_{v+1}| - jChecked` computes the loop's fixed
point — and an empty intermediate list at any level of a partial solution's
reconstruction propagates to an empty final list, so that partial solution
contributes zero solutions. -/
theorem c9_crossmerge_termination :
    (∀ (cbl : Nat) (L R : List BasicRow) (iC jC : Nat) (acc : List BasicRow),
      jC + 1 ≤ (crossStep cbl L R iC jC acc).2.1) ∧
    (∀ (cbl : Nat) (L R : List BasicRow) (f iC jC : Nat) (acc : List BasicRow),
      R.length - jC ≤ f →
      crossLoop cbl L R f iC jC acc = crossLoop cbl L R (R.length - jC) iC jC acc) ∧
    (∀ (cbl : Nat) (L R : List BasicRow),
      crossMerge cbl L [] = [] ∧ crossMerge cbl [] R = []) ∧
    (∀ (n k m : Nat) (X : List (List BasicRow)), X.length = 2 ^ m → [] ∈ X →
      phaseBLoop n k X.length X = [[]] ∧
      ((phaseBLoop n k X.length X).getD 0 []).map (fun r => r.indices) = []) := by
  refine ⟨crossStep_advance, ?_, ?_, ?_⟩
  · intro cbl L R f iC jC acc hf
    exact crossLoop_stable cbl L R f (R.length - jC) iC jC acc hf le_rfl
  · intro cbl L R
    exact ⟨crossMerge_nil_right cbl L, crossMerge_nil_left cbl R⟩
  · intro n k m X hlen hmem
    have h := phaseBLoop_empty n k m X.length X (by rw [hlen]; exact le_of_lt (Nat.lt_two_pow m))
      hlen hmem
    rw [h]
    exact ⟨rfl, rfl⟩

/-- Witness for C9 at concrete inputs. -/
theorem c9_crossmerge_termination_witness :
    (0 + 1 ≤ (crossStep 1 [BasicRow.mk [0] [1]] [BasicRow.mk [0] [2]] 0 0 []).2.1) ∧
    (crossLoop 1 [BasicRow.mk [0] [1]] [BasicRow.mk [0] [2]] 5 0 0 [] =
      crossLoop 1 [BasicRow.mk [0] [1]] [BasicRow.mk [0] [2]]
        ([BasicRow.mk [0] [2]].length - 0) 0 0 []) ∧
    (crossMerge 1 [BasicRow.mk [0] [1]] [] = [] ∧ crossMerge 1 [] [BasicRow.mk [0] [2]] = []) ∧
    (phaseBLoop 16 1 ([[], [BasicRow.mk [0] [1]]] : List (List BasicRow)).length
        [[], [BasicRow.mk [0] [1]]] = [[]]) :=
  ⟨c9_crossmerge_termination.1 1 [BasicRow.mk [0] [1]] [BasicRow.mk [0] [2]] 0 0 [],
   c9_crossmerge_termination.2.1 1 [BasicRow.mk [0] [1]] [BasicRow.mk [0] [2]] 5 0 0 []
     (by decide),
   c9_crossmerge_termination.2.2.1 1 [BasicRow.mk [0] [1]] [BasicRow.mk [0] [2]],
   (c9_crossmerge_termination.2.2.2 16 1 1 [[], [BasicRow.mk [0] [1]]]
     (by decide) (by simp)).1⟩

/-! ### Verifier facts -/

theorem headD_mem (l : List α) (d : α) (h : l ≠ []) : l.headD d ∈ l := by
  cases l with
  | nil => exact absurd rfl h
  | cons x xs => exact List.mem_cons_self x xs

theorem verifyPair_none_of_not_lt (cbl : Nat) (a b : BasicRow)
    (ha : a.indices ≠ []) (hb : b.indices ≠ [])
    (hord : ¬ (idx0B a < idx0B b)) : verifyPair cbl a b = none := by
  unfold verifyPair
  by_cases hcol : hasCollision a.hash b.hash cbl
  · by_cases hlt : idx0B b < idx0B a
    · simp [hcol, hlt]
    · have heq : idx0B a = idx0B b := by omega
      have hmema : idx0B a ∈ a.indices := headD_mem _ _ ha
      have hmemb : idx0B a ∈ b.indices := heq ▸ headD_mem _ _ hb
      have hdist : DistinctIndices a.indices b.indices = false :=
        DistinctIndices_false_of_mem _ _ _ hmema hmemb
      simp [hcol, hlt, hdist]
  · simp [hcol]

theorem verifyPairs_none_of_mem (cbl : Nat) (X : List BasicRow) :
    ∀ (is : List Nat) (i : Nat), i ∈ is →
      verifyPair cbl (X.getD (2 * i) dRow) (X.getD (2 * i + 1) dRow) = none →
      verifyPairs cbl X is = none := by
  intro is
  induction is with
  | nil => intro i hi; cases hi
  | cons j rest ih =>
    intro i hi hnone
    rcases List.mem_cons.mp hi with h | h
    · subst h
      simp only [verifyPairs]
      rw [hnone]
    · cases hpj : verifyPair cbl (X.getD (2 * j) dRow) (X.getD (2 * j + 1) dRow) with
      | none =>
        simp only [verifyPairs]
        rw [hpj]
      | some r =>
        simp only [verifyPairs]
        rw [hpj, ih i h hnone]

theorem verifyPairs_some_rows (cbl : Nat) (X : List BasicRow) :
    ∀ (is : List Nat) (rs : List BasicRow), verifyPairs cbl X is = some rs →
      ∀ r ∈ rs, ∃ i ∈ is,
        verifyPair cbl (X.getD (2 * i) dRow) (X.getD (2 * i + 1) dRow) = some r := by
  intro is
  induction is with
  | nil =>
    intro rs hrs r hr
    simp [verifyPairs] at hrs
    subst hrs
    cases hr
  | cons j rest ih =>
    intro rs hrs r hr
    simp only [verifyPairs] at hrs
    cases hpj : verifyPair cbl (X.getD (2 * j) dRow) (X.getD (2 * j + 1) dRow) with
    | none =>
      rw [hpj] at hrs
      cases hrs
    | some r0 =>
      rw [hpj] at hrs
      cases hrest : verifyPairs cbl X rest with
      | none =>
        rw [hrest] at hrs
        cases hrs
      | some rs0 =>
        rw [hrest] at hrs
        cases hrs
        rcases List.mem_cons.mp hr with h | h
        · exact ⟨j, List.mem_cons_self _ _, h ▸ hpj⟩
        · rcases ih rs0 hrest r h with ⟨i, hi, hverify⟩
          exact ⟨i, List.mem_cons_of_mem j hi, hverify⟩

theorem verifyPairs_some_length (cbl : Nat) (X : List BasicRow) :
    ∀ (is : List Nat) (rs : List BasicRow), verifyPairs cbl X is = some rs →
      rs.length = is.length := by
  intro is
  induction is with
  | nil =>
    intro rs hrs
    simp [verifyPairs] at hrs
    subst hrs
    rfl
  | cons j rest ih =>
    intro rs hrs
    simp only [verifyPairs] at hrs
    cases hpj : verifyPair cbl (X.getD (2 * j) dRow) (X.getD (2 * j + 1) dRow) with
    | none =>
      rw [hpj] at hrs
      cases hrs
    | some r0 =>
      rw [hpj] at hrs
      cases hrest : verifyPairs cbl X rest with
      | none =>
        rw [hrest] at hrs
        cases hrs
      | some rs0 =>
        rw [hrest] at hrs
        cases hrs
        simp [ih rs0 hrest]

theorem verifyPair_some_indices (cbl : Nat) (a b r : BasicRow)
    (h : verifyPair cbl a b = some r) :
    r.indices = a.indices ++ b.indices ∨ r.indices = b.indices ++ a.indices := by
  unfold verifyPair at h
  by_cases hcol : hasCollision a.hash b.hash cbl
  · by_cases hlt : idx0B b < idx0B a
    · simp [hcol, hlt] at h
    · by_cases hdist : DistinctIndices a.indices b.indices
      · simp [hcol, hlt, hdist] at h
        have : r = (xorOpB a b).trim cbl := h.symm
        subst this
        unfold xorOpB BasicRow.trim xorCatB
        by_cases hor : idx0B a < idx0B b
        · simp [hor]
        · simp [hor]
      · simp [hcol, hlt, hdist] at h
  · simp [hcol] at h

theorem verifyRound_none_of_bad_pair (cbl : Nat) (X : List BasicRow) (i : Nat)
    (hpair : 2 * i + 1 < X.length)
    (hnone : verifyPair cbl (X.getD (2 * i) dRow) (X.getD (2 * i + 1) dRow) = none) :
    verifyRound cbl X = none := by
  unfold verifyRound
  exact verifyPairs_none_of_mem cbl X _ i (List.mem_range.mpr (by omega)) hnone

theorem verifyLevels_nonempty (cbl : Nat) :
    ∀ (r : Nat) (X Y : List BasicRow), verifyLevels cbl r X = some Y →
      (∀ row ∈ X, row.indices ≠ []) → ∀ row ∈ Y, row.indices ≠ [] := by
  intro r
  induction r with
  | zero =>
    intro X Y hlev hX
    have : X = Y := by simpa [verifyLevels] using hlev
    exact this ▸ hX
  | succ r ih =>
    intro X Y hlev hX
    by_cases hguard : 1 < X.length
    · simp only [verifyLevels, if_pos hguard] at hlev
      cases hround : verifyRound cbl X with
      | none => rw [hround] at hlev; cases hlev
      | some Xc =>
        rw [hround] at hlev
        apply ih Xc Y hlev
        intro row hrow
        rcases verifyPairs_some_rows cbl X _ Xc hround row hrow with ⟨j, hj, hpair⟩
        have hjlt : 2 * j + 1 < X.length := by
          have := List.mem_range.mp hj
          omega
        have hA : X.getD (2 * j) dRow ∈ X := getD_mem dRow (by omega)
        have hB : X.getD (2 * j + 1) dRow ∈ X := getD_mem dRow hjlt
        rcases verifyPair_some_indices cbl _ _ row hpair with h | h
        · rw [h]
          intro hcontra
          exact hX _ hA (List.append_eq_nil.mp hcontra).1
        · rw [h]
          intro hcontra
          exact hX _ hB (List.append_eq_nil.mp hcontra).1
    · simp [verifyLevels, hguard] at hlev

theorem verifyLevels_length (cbl : Nat) :
    ∀ (r : Nat) (X Y : List BasicRow), verifyLevels cbl r X = some Y →
      Y.length + r ≤ X.length := by
  intro r
  induction r with
  | zero =>
    intro X Y hlev
    have : X = Y := by simpa [verifyLevels] using hlev
    rw [this]
    omega
  | succ r ih =>
    intro X Y hlev
    by_cases hguard : 1 < X.length
    · simp only [verifyLevels, if_pos hguard] at hlev
      cases hround : verifyRound cbl X with
      | none => rw [hround] at hlev; cases hlev
      | some Xc =>
        rw [hround] at hlev
        have hlen : Xc.length = X.length / 2 := by
          have := verifyPairs_some_length cbl X _ Xc hround
          simpa [List.length_range] using this
        have := ih Xc Y hlev
        omega
    · simp [verifyLevels, hguard] at hlev

theorem verifyLoop_false_of_levels (cbl : Nat) :
    ∀ (r : Nat) (X Y : List BasicRow) (f : Nat),
      verifyLevels cbl r X = some Y → verifyRound cbl Y = none → 1 < Y.length →
      r < f → verifyLoop cbl f X = false := by
  intro r
  induction r with
  | zero =>
    intro X Y f hlev hround hlen hf
    have hXY : X = Y := by simpa [verifyLevels] using hlev
    subst hXY
    cases f with
    | zero => omega
    | succ f => simp [verifyLoop, hlen, hround]
  | succ r ih =>
    intro X Y f hlev hround hlen hf
    by_cases hguard : 1 < X.length
    · simp only [verifyLevels, if_pos hguard] at hlev
      cases hroundX : verifyRound cbl X with
      | none => rw [hroundX] at hlev; cases hlev
      | some Xc =>
        rw [hroundX] at hlev
        cases f with
        | zero => omega
        | succ f =>
          simp only [verifyLoop, if_pos hguard, hroundX]
          exact ih Xc Y f hlev hround hlen (by omega)
    · simp [verifyLevels, hguard] at hlev

/-- C7: for a candidate solution of the correct size `2^k`, if at any level
`r` of the verifier's strict pairwise merge some pair has a left row whose
first index is not strictly less than the right row's first index, then
`IsValidSolution` returns `false` (when the first indices are equal, the
distinct-indices check fails at the same pair; when the left is greater, the
`IndicesBefore` check fails). -/
theorem c7_verifier_rejects_unordered (n k : Nat) (h : Nat → List Nat)
    (soln : List Nat) (r i : Nat) (X : List BasicRow)
    (hsize : soln.length = 2 ^ k)
    (hlev : verifyLevels (collisionByteLength n k) r (soln.map (leafB h)) = some X)
    (hpair : 2 * i + 1 < X.length)
    (hord : ¬ (idx0B (X.getD (2 * i) dRow) < idx0B (X.getD (2 * i + 1) dRow))) :
    isValidSolution n k h soln = false := by
  have hleaves : ∀ row ∈ soln.map (leafB h), row.indices ≠ [] := by
    intro row hrow
    rcases List.mem_map.mp hrow with ⟨j, _, hj⟩
    rw [hj.symm]
    simp [leafB]
  have hXne : ∀ row ∈ X, row.indices ≠ [] :=
    verifyLevels_nonempty _ r _ X hlev hleaves
  have hA : X.getD (2 * i) dRow ∈ X := getD_mem dRow (by omega)
  have hB : X.getD (2 * i + 1) dRow ∈ X := getD_mem dRow hpair
  have hnone : verifyPair (collisionByteLength n k)
      (X.getD (2 * i) dRow) (X.getD (2 * i + 1) dRow) = none :=
    verifyPair_none_of_not_lt _ _ _ (hXne _ hA) (hXne _ hB) hord
  have hround : verifyRound (collisionByteLength n k) X = none :=
    verifyRound_none_of_bad_pair _ X i hpair hnone
  have hlenbound : X.length + r ≤ soln.length := by
    have := verifyLevels_length (collisionByteLength n k) r _ X hlev
    simpa using this
  have hfalse : verifyLoop (collisionByteLength n k) soln.length (soln.map (leafB h)) = false :=
    verifyLoop_false_of_levels _ r _ X soln.length hlev hround (by omega) (by omega)
  unfold isValidSolution
  rw [if_neg (by omega), hfalse]

/-- Witness for C7: `n = 16, k = 1`, candidate `[5, 3]` — at level 0 the
pair's left first index 5 is not below the right first index 3. -/
theorem c7_verifier_rejects_unordered_witness :
    isValidSolution 16 1 hashA [5, 3] = false :=
  c7_verifier_rejects_unordered 16 1 hashA [5, 3] 0 0 ([5, 3].map (leafB hashA))
    (by decide) rfl (by decide) (by decide)

/-! ### The collision-round invariant (towards C8) -/

theorem runMerges_prop {P Q : ρ → Prop} (emit : ρ → ρ → Option ρ) (d : ρ)
    (X : List ρ) (i j lo : Nat)
    (hemit : ∀ a b e, Q a → Q b → emit a b = some e → P e)
    (hQ : ∀ p, lo ≤ p → p < X.length → Q (X.getD p d))
    (hlo : lo ≤ i) (hij : i + j ≤ X.length) :
    ∀ e ∈ runMerges emit d X i j, P e := by
  intro e he
  rcases List.mem_flatMap.mp he with ⟨l, hl, he2⟩
  rcases List.mem_filterMap.mp he2 with ⟨m, hm, hemitted⟩
  have hlj : l < j := List.mem_range.mp hl
  have hmj : m < j := List.mem_range.mp (List.mem_of_mem_drop hm)
  have hQl : Q (X.getD (i + l) d) := hQ (i + l) (by omega) (by omega)
  have hQm : Q (X.getD (i + m) d) := hQ (i + m) (by omega) (by omega)
  exact hemit _ _ e hQl hQm hemitted

theorem scanLoop_inv {P Q : ρ → Prop} (hashOf : ρ → List Nat) (cbl : Nat)
    (emit : ρ → ρ → Option ρ) (d : ρ)
    (hemit : ∀ a b e, Q a → Q b → emit a b = some e → P e) :
    ∀ (fuel : Nat) (X : List ρ) (i posFree : Nat) (XcRev : List ρ),
      posFree ≤ i → posFree ≤ X.length →
      (∀ p, posFree ≤ p → p < X.length → Q (X.getD p d)) →
      (∀ p, p < posFree → P (X.getD p d)) →
      (∀ r ∈ XcRev, P r) →
      (scanLoop hashOf cbl emit d fuel X i posFree XcRev).1.length = X.length ∧
      (scanLoop hashOf cbl emit d fuel X i posFree XcRev).2.1 ≤ X.length ∧
      (∀ p, p < (scanLoop hashOf cbl emit d fuel X i posFree XcRev).2.1 →
        P ((scanLoop hashOf cbl emit d fuel X i posFree XcRev).1.getD p d)) ∧
      (∀ r ∈ (scanLoop hashOf cbl emit d fuel X i posFree XcRev).2.2, P r) := by
  intro fuel
  induction fuel with
  | zero =>
    intro X i posFree XcRev hpi hpl hQ hP hXc
    exact ⟨rfl, hpl, hP, hXc⟩
  | succ fuel ih =>
    intro X i posFree XcRev hpi hpl hQ hP hXc
    by_cases hguard : i + 1 < X.length
    · have hstep : scanLoop hashOf cbl emit d (fuel + 1) X i posFree XcRev =
          scanLoop hashOf cbl emit d fuel
            (writeBack d X posFree (i + runLength hashOf cbl d X i)
              ((runMerges emit d X i (runLength hashOf cbl d X i)).reverse ++ XcRev)).1
            (i + runLength hashOf cbl d X i)
            (writeBack d X posFree (i + runLength hashOf cbl d X i)
              ((runMerges emit d X i (runLength hashOf cbl d X i)).reverse ++ XcRev)).2.1
            (writeBack d X posFree (i + runLength hashOf cbl d X i)
              ((runMerges emit d X i (runLength hashOf cbl d X i)).reverse ++ XcRev)).2.2 := by
        simp only [scanLoop, if_pos hguard]
        rfl
      rw [hstep]
      have hj1 : 1 ≤ runLength hashOf cbl d X i := runLength_pos hashOf cbl d X i
      have hij : i + runLength hashOf cbl d X i ≤ X.length :=
        runLength_le hashOf cbl d X i (by omega)
      have hmerges : ∀ e ∈ runMerges emit d X i (runLength hashOf cbl d X i), P e :=
        runMerges_prop emit d X i _ posFree hemit hQ hpi hij
      have hXc1 : ∀ r ∈ (runMerges emit d X i (runLength hashOf cbl d X i)).reverse ++ XcRev,
          P r := by
        intro r hr
        rcases List.mem_append.mp hr with h | h
        · exact hmerges r (List.mem_reverse.mp h)
        · exact hXc r h
      have hw := writeBack_spec d
        ((runMerges emit d X i (runLength hashOf cbl d X i)).reverse ++ XcRev)
        X posFree (i + runLength hashOf cbl d X i) hij
      obtain ⟨hwa, hwb, hwc, hwd, hwe, hwf, _⟩ := hw
      have hpf1 : (writeBack d X posFree (i + runLength hashOf cbl d X i)
          ((runMerges emit d X i (runLength hashOf cbl d X i)).reverse ++ XcRev)).2.1 ≤
          i + runLength hashOf cbl d X i := hwc (by omega)
      have hrec := ih
        (writeBack d X posFree (i + runLength hashOf cbl d X i)
          ((runMerges emit d X i (runLength hashOf cbl d X i)).reverse ++ XcRev)).1
        (i + runLength hashOf cbl d X i)
        (writeBack d X posFree (i + runLength hashOf cbl d X i)
          ((runMerges emit d X i (runLength hashOf cbl d X i)).reverse ++ XcRev)).2.1
        (writeBack d X posFree (i + runLength hashOf cbl d X i)
          ((runMerges emit d X i (runLength hashOf cbl d X i)).reverse ++ XcRev)).2.2
        hpf1 (by rw [hwa]; omega) ?_ ?_ ?_
      · rcases hrec with ⟨h1, h2, h3, h4⟩
        exact ⟨by rw [h1, hwa], by rw [hwa] at h2; exact h2, h3, h4⟩
      · intro p hp1 hp2
        rw [hwa] at hp2
        rw [hwd p (Or.inr hp1)]
        exact hQ p (le_trans hwb hp1) hp2
      · intro p hp
        by_cases hpp : p < posFree
        · rw [hwd p (Or.inl hpp)]
          exact hP p hpp
        · exact hXc1 _ (hwe p (by omega) hp)
      · intro r hr
        exact hXc1 r (hwf r hr)
    · have hstop : scanLoop hashOf cbl emit d (fuel + 1) X i posFree XcRev =
          (X, posFree, XcRev) := by
        simp only [scanLoop, if_neg hguard]
      rw [hstop]
      exact ⟨rfl, hpl, hP, hXc⟩

theorem roundStep_inv {P Q : ρ → Prop} (hashOf : ρ → List Nat) (cbl : Nat)
    (emit : ρ → ρ → Option ρ) (lt : ρ → ρ → Bool) (d : ρ)
    (hemit : ∀ a b e, Q a → Q b → emit a b = some e → P e)
    (X : List ρ) (hX : ∀ r ∈ X, Q r) :
    ∀ r ∈ roundStep hashOf cbl emit lt d X, P r := by
  have hsorted : ∀ r ∈ msort lt X, Q r := by
    intro r hr
    exact hX r ((mem_msort lt X r).mp hr)
  have hscan := scanLoop_inv hashOf cbl emit d hemit (msort lt X).length (msort lt X) 0 0 []
    (by omega) (by omega)
    (fun p _ hp => hsorted _ (getD_mem d hp))
    (fun p hp => absurd hp (by omega))
    (fun r hr => absurd hr (List.not_mem_nil r))
  obtain ⟨hlen, hpf, hprefix, hXc⟩ := hscan
  have hwb := writeBack_spec d
    (scanLoop hashOf cbl emit d (msort lt X).length (msort lt X) 0 0 []).2.2
    (scanLoop hashOf cbl emit d (msort lt X).length (msort lt X) 0 0 []).1
    (scanLoop hashOf cbl emit d (msort lt X).length (msort lt X) 0 0 []).2.1
    (scanLoop hashOf cbl emit d (msort lt X).length (msort lt X) 0 0 []).1.length
    le_rfl
  obtain ⟨hwa, hwb2, hwc, hwd, hwe, hwf, hwg⟩ := hwb
  have hprefix2 : ∀ p, p < (writeBack d
      (scanLoop hashOf cbl emit d (msort lt X).length (msort lt X) 0 0 []).1
      (scanLoop hashOf cbl emit d (msort lt X).length (msort lt X) 0 0 []).2.1
      (scanLoop hashOf cbl emit d (msort lt X).length (msort lt X) 0 0 []).1.length
      (scanLoop hashOf cbl emit d (msort lt X).length (msort lt X) 0 0 []).2.2).2.1 →
      P ((writeBack d
      (scanLoop hashOf cbl emit d (msort lt X).length (msort lt X) 0 0 []).1
      (scanLoop hashOf cbl emit d (msort lt X).length (msort lt X) 0 0 []).2.1
      (scanLoop hashOf cbl emit d (msort lt X).length (msort lt X) 0 0 []).1.length
      (scanLoop hashOf cbl emit d (msort lt X).length (msort lt X) 0 0 []).2.2).1.getD p d) := by
    intro p hp
    by_cases hplt : p < (scanLoop hashOf cbl emit d (msort lt X).length (msort lt X) 0 0 []).2.1
    · rw [hwd p (Or.inl hplt)]
      exact hprefix p hplt
    · exact hXc _ (hwe p (by omega) hp)
  intro r hr
  unfold roundStep at hr
  dsimp only at hr
  by_cases hempty : (writeBack d
      (scanLoop hashOf cbl emit d (msort lt X).length (msort lt X) 0 0 []).1
      (scanLoop hashOf cbl emit d (msort lt X).length (msort lt X) 0 0 []).2.1
      (scanLoop hashOf cbl emit d (msort lt X).length (msort lt X) 0 0 []).1.length
      (scanLoop hashOf cbl emit d (msort lt X).length (msort lt X) 0 0 []).2.2).2.2.isEmpty
  · rw [if_neg (by simp [hempty])] at hr
    exact getD_prop_of_take (fun p hp _ => hprefix2 p hp) r hr
  · rw [if_pos (by simp [hempty])] at hr
    rcases List.mem_append.mp hr with h | h
    · have hfull : (scanLoop hashOf cbl emit d (msort lt X).length
          (msort lt X) 0 0 []).1.length ≤ (writeBack d
          (scanLoop hashOf cbl emit d (msort lt X).length (msort lt X) 0 0 []).1
          (scanLoop hashOf cbl emit d (msort lt X).length (msort lt X) 0 0 []).2.1
          (scanLoop hashOf cbl emit d (msort lt X).length (msort lt X) 0 0 []).1.length
          (scanLoop hashOf cbl emit d (msort lt X).length (msort lt X) 0 0 []).2.2).2.1 :=
        hwg (by simpa [List.isEmpty_iff] using hempty)
      rcases List.mem_iff_getElem.mp h with ⟨p, hp, hval⟩
      have hplen : p < (writeBack d
          (scanLoop hashOf cbl emit d (msort lt X).length (msort lt X) 0 0 []).1
          (scanLoop hashOf cbl emit d (msort lt X).length (msort lt X) 0 0 []).2.1
          (scanLoop hashOf cbl emit d (msort lt X).length (msort lt X) 0 0 []).1.length
          (scanLoop hashOf cbl emit d (msort lt X).length (msort lt X) 0 0 []).2.2).1.length := hp
      have hgetD : (writeBack d
          (scanLoop hashOf cbl emit d (msort lt X).length (msort lt X) 0 0 []).1
          (scanLoop hashOf cbl emit d (msort lt X).length (msort lt X) 0 0 []).2.1
          (scanLoop hashOf cbl emit d (msort lt X).length (msort lt X) 0 0 []).1.length
          (scanLoop hashOf cbl emit d (msort lt X).length (msort lt X) 0 0 []).2.2).1.getD p d
          = r := by
        rw [List.getD_eq_getElem?_getD, List.getElem?_eq_getElem hp]
        exact hval
      rw [hgetD.symm]
      apply hprefix2
      rw [hwa] at hplen
      omega
    · exact hXc _ (hwf _ (List.mem_reverse.mp h))

theorem roundLoop_inv (hashOf : ρ → List Nat) (cbl : Nat) (emit : ρ → ρ → Option ρ)
    (lt : ρ → ρ → Bool) (d : ρ) (Inv : Nat → ρ → Prop)
    (hemit : ∀ r a b e, Inv r a → Inv r b → emit a b = some e → Inv (r + 1) e) :
    ∀ (m r0 : Nat) (X : List ρ), (∀ row ∈ X, Inv r0 row) →
      ∀ row ∈ roundLoop hashOf cbl emit lt d m X, Inv (r0 + m) row := by
  intro m
  induction m with
  | zero => intro r0 X hX; exact hX
  | succ m ih =>
    intro r0 X hX
    by_cases hne : 0 < X.length
    · intro row hrow
      rw [roundLoop, if_pos hne] at hrow
      have hstep : ∀ row ∈ roundStep hashOf cbl emit lt d X, Inv (r0 + 1) row :=
        roundStep_inv hashOf cbl emit lt d (hemit r0) X hX
      have := ih (r0 + 1) (roundStep hashOf cbl emit lt d X) hstep row hrow
      have harith : r0 + 1 + m = r0 + (m + 1) := by omega
      exact harith ▸ this
    · intro row hrow
      rw [roundLoop, if_neg hne] at hrow
      have hXnil : X = [] := List.length_eq_zero.mp (by omega)
      subst hXnil
      cases hrow

theorem basicEmit_rowInv (L cbl : Nat) :
    ∀ (r : Nat) (a b e : BasicRow), rowInv L r a → rowInv L r b →
      basicEmit cbl a b = some e → rowInv L (r + 1) e := by
  intro r a b e ha hb he
  unfold basicEmit at he
  by_cases hdist : DistinctIndices a.indices b.indices
  · rw [if_pos hdist] at he
    have heq : e = (xorOpB a b).trim cbl := by
      cases he
      rfl
    subst heq
    have hset : ((xorOpB a b).trim cbl).indices = a.indices ++ b.indices ∨
        ((xorOpB a b).trim cbl).indices = b.indices ++ a.indices := by
      unfold xorOpB BasicRow.trim xorCatB
      by_cases hor : idx0B a < idx0B b
      · rw [if_pos hor]
        exact Or.inl rfl
      · rw [if_neg hor]
        exact Or.inr rfl
    have hdisj : a.indices.Disjoint b.indices := by
      intro x hxa hxb
      exact DistinctIndices_true_disjoint _ _ hdist x hxa hxb
    obtain ⟨hlenA, hnodupA, hboundA⟩ := ha
    obtain ⟨hlenB, hnodupB, hboundB⟩ := hb
    rcases hset with h | h <;> rw [rowInv, h]
    · refine ⟨?_, hnodupA.append hnodupB hdisj, ?_⟩
      · rw [List.length_append, hlenA, hlenB, pow_succ]
        omega
      · intro x hx
        rcases List.mem_append.mp hx with h2 | h2
        · exact hboundA x h2
        · exact hboundB x h2
    · refine ⟨?_, hnodupB.append hnodupA (List.disjoint_symm hdisj), ?_⟩
      · rw [List.length_append, hlenA, hlenB, pow_succ]
        omega
      · intro x hx
        rcases List.mem_append.mp hx with h2 | h2
        · exact hboundB x h2
        · exact hboundA x h2
  · rw [if_neg hdist] at he
    cases he

theorem leaves_rowInv (h : Nat → List Nat) (L : Nat) :
    ∀ row ∈ (List.range L).map (leafB h), rowInv L 0 row := by
  intro row hrow
  rcases List.mem_map.mp hrow with ⟨i, hi, hleaf⟩
  rw [hleaf.symm]
  refine ⟨rfl, List.nodup_singleton i, ?_⟩
  intro x hx
  rcases List.mem_cons.mp hx with h2 | h2
  · exact h2 ▸ List.mem_range.mp hi
  · cases h2

theorem adjPairs_mem : ∀ (l : List ρ) (a b : ρ), (a, b) ∈ adjPairs l → a ∈ l ∧ b ∈ l := by
  intro l
  induction l with
  | nil => intro a b hab; cases hab
  | cons x xs ih =>
    intro a b hab
    cases xs with
    | nil => cases hab
    | cons y ys =>
      rcases List.mem_cons.mp hab with h | h
      · have ha : a = x := congrArg Prod.fst h
        have hb : b = y := congrArg Prod.snd h
        constructor
        · rw [ha]; exact List.mem_cons_self x (y :: ys)
        · rw [hb]
          exact List.mem_cons_of_mem x (List.mem_cons_self y ys)
      · have := ih a b h
        exact ⟨List.mem_cons_of_mem x this.1, List.mem_cons_of_mem x this.2⟩

/-- C8 counterexample: `(n, k) = (8, 0)` passes parameter validation, yet
`BasicSolve` (with the all-zero leaf-hash table) returns the solution
`[0, 1]`, whose length 2 is not `2^k = 1`. -/
theorem c8_counterexample_k_zero :
    validate_params 8 0 = true ∧
    [0, 1] ∈ basicSolveList 8 0 hZero ∧
    ¬ (([0, 1] : List Nat).length = 2 ^ (0 : Nat)) := by
  decide

/-- C8 as amended (the claim additionally requires `k ≥ 1`; for `k = 0`,
which `validate_params` accepts, the final round still emits pairs, so
solutions have length 2 ≠ 2^0): for valid parameters with `k ≥ 1`, every
solution returned by `BasicSolve` has length exactly `2^k`, pairwise
distinct indices, and every index below `2^(N+1)` where `N = n/(k+1)`. -/
theorem c8_solution_shape (n k : Nat) (h : Nat → List Nat) (sol : List Nat)
    (hvalid : validate_params n k = true) (hk : 1 ≤ k)
    (hsol : sol ∈ basicSolveList n k h) :
    sol.length = 2 ^ k ∧ sol.Nodup ∧
    ∀ x ∈ sol, x < 2 ^ (collisionBitLength n k + 1) := by
  unfold basicSolveList at hsol
  dsimp only at hsol
  by_cases hlen : 1 <
      (roundLoop (fun r => r.hash) (collisionByteLength n k)
        (basicEmit (collisionByteLength n k)) rowLtB dRow (k - 1)
        ((List.range (initSize n k)).map (leafB h))).length
  · rw [if_pos hlen] at hsol
    rcases List.mem_filterMap.mp hsol with ⟨ab, hab, hval⟩
    have hinv : ∀ row ∈ roundLoop (fun r => r.hash) (collisionByteLength n k)
        (basicEmit (collisionByteLength n k)) rowLtB dRow (k - 1)
        ((List.range (initSize n k)).map (leafB h)), rowInv (initSize n k) (k - 1) row := by
      have := roundLoop_inv (fun r => r.hash) (collisionByteLength n k)
        (basicEmit (collisionByteLength n k)) rowLtB dRow (rowInv (initSize n k))
        (basicEmit_rowInv (initSize n k) (collisionByteLength n k)) (k - 1) 0
        ((List.range (initSize n k)).map (leafB h))
        (leaves_rowInv h (initSize n k))
      simpa using this
    have habmem := adjPairs_mem _ ab.1 ab.2 hab
    have hA : rowInv (initSize n k) (k - 1) ab.1 :=
      hinv _ ((mem_msort rowLtB _ ab.1).mp habmem.1)
    have hB : rowInv (initSize n k) (k - 1) ab.2 :=
      hinv _ ((mem_msort rowLtB _ ab.2).mp habmem.2)
    by_cases hcond : ((xorOpB ab.1 ab.2).isZero &&
        DistinctIndices ab.1.indices ab.2.indices) = true
    · rw [if_pos hcond] at hval
      have hsoleq : sol = (xorOpB ab.1 ab.2).indices := by
        cases hval
        rfl
      have hdist : DistinctIndices ab.1.indices ab.2.indices = true :=
        (Bool.and_eq_true _ _ |>.mp hcond).2
      have hset : (xorOpB ab.1 ab.2).indices = ab.1.indices ++ ab.2.indices ∨
          (xorOpB ab.1 ab.2).indices = ab.2.indices ++ ab.1.indices := by
        unfold xorOpB xorCatB
        by_cases hor : idx0B ab.1 < idx0B ab.2
        · rw [if_pos hor]
          exact Or.inl rfl
        · rw [if_neg hor]
          exact Or.inr rfl
      have hdisj : ab.1.indices.Disjoint ab.2.indices := by
        intro x hxa hxb
        exact DistinctIndices_true_disjoint _ _ hdist x hxa hxb
      obtain ⟨hlenA, hnodupA, hboundA⟩ := hA
      obtain ⟨hlenB, hnodupB, hboundB⟩ := hB
      have hpow : 2 ^ (k - 1) + 2 ^ (k - 1) = 2 ^ k := by
        have hk2 : k - 1 + 1 = k := by omega
        calc 2 ^ (k - 1) + 2 ^ (k - 1) = 2 ^ (k - 1) * 2 := by omega
          _ = 2 ^ (k - 1 + 1) := (pow_succ 2 (k - 1)).symm
          _ = 2 ^ k := by rw [hk2]
      rw [hsoleq]
      rcases hset with hcat | hcat <;> rw [hcat]
      · refine ⟨?_, hnodupA.append hnodupB hdisj, ?_⟩
        · rw [List.length_append, hlenA, hlenB]
          exact hpow
        · intro x hx
          rcases List.mem_append.mp hx with h2 | h2
          · exact hboundA x h2
          · exact hboundB x h2
      · refine ⟨?_, hnodupB.append hnodupA (List.disjoint_symm hdisj), ?_⟩
        · rw [List.length_append, hlenB, hlenA]
          exact hpow
        · intro x hx
          rcases List.mem_append.mp hx with h2 | h2
          · exact hboundB x h2
          · exact hboundA x h2
    · rw [if_neg hcond] at hval
      cases hval
  · rw [if_neg hlen] at hsol
    cases hsol

set_option maxHeartbeats 16000000

/-- Witness for the amended C8 at `n = 16, k = 1` with leaf hashes `hashA`
and the returned solution `[2, 4]`. -/
theorem c8_solution_shape_witness :
    ([2, 4] : List Nat).length = 2 ^ 1 ∧ ([2, 4] : List Nat).Nodup ∧
    ∀ x ∈ ([2, 4] : List Nat), x < 2 ^ (collisionBitLength 16 1 + 1) :=
  c8_solution_shape 16 1 hashA [2, 4] (by decide) (by decide) (by decide)
